import Mathlib

/-!
Shallow embedding of the blockchain-block anomaly-detection pipeline of
src/app.py: cleaning, feature engineering, percentile-based anomaly
flagging, and normalized risk scoring, over exact rational arithmetic.
A missing cell (NaN in the data) is Option.none; an undefined result of a
division by zero (NaN/inf in float arithmetic) is tracked with Option too.
-/

/-- The named columns the pipeline reads: the eleven whitelisted numeric
columns of src/app.py lines 29 to 34 plus the identifying height column. -/
inductive Col where
  | size | tx_count | difficulty
  | median_fee_rate | avg_fee_rate | total_fees
  | fee_range_min | fee_range_max
  | input_count | output_count | output_amount
  | height
deriving DecidableEq

/-- A cell of the table; none models a missing value (NaN). -/
abbrev Cell := Option ℚ

/-- A row is the list of its cells, positionally aligned with the schema. -/
abbrev Row := List Cell

/-- A raw tabular dataset: the columns present (the schema) and the rows. -/
structure RawTable where
  schema : List Col
  rows : List Row
deriving DecidableEq

/-- The cell of column c in row r under schema: none when the column is
absent from the schema, some none when the cell itself is missing (NaN). -/
def cellAt (schema : List Col) (r : Row) (c : Col) : Option Cell :=
  (schema.zip r).lookup c

/-- The rational value of column c in row r, defaulting to 0; the pipeline
reads it only after cleaning, when the cell is known to be present. -/
def cellVal (schema : List Col) (r : Row) (c : Col) : ℚ :=
  match cellAt schema r c with
  | some (some v) => v
  | _ => 0

/-- The whitelist of numeric columns subject to the non-negativity filter,
src/app.py lines 29 to 34. -/
def numeric_cols : List Col :=
  [.size, .tx_count, .difficulty,
   .median_fee_rate, .avg_fee_rate, .total_fees,
   .fee_range_min, .fee_range_max,
   .input_count, .output_count, .output_amount]

/-- df.dropna() at src/app.py line 26: keep rows with no missing cell. -/
def dropna (rows : List Row) : List Row :=
  rows.filter fun r => r.all fun cell => cell.isSome

/-- Helper of dropDuplicates: drop rows already seen, scanning forward. -/
def dropDupAux (seen : List Row) : List Row → List Row
  | [] => []
  | r :: rest =>
    if r ∈ seen then dropDupAux seen rest
    else r :: dropDupAux (r :: seen) rest

/-- df.drop_duplicates() at src/app.py line 27: remove exact duplicate
rows, keeping the first occurrence of each. -/
def dropDuplicates (rows : List Row) : List Row := dropDupAux [] rows

/-- The non-negativity test for one whitelisted column: keep a row iff its
value there is a present, non-negative number (a pandas comparison against
NaN is false; dropna has already removed such rows anyway). -/
def keepNonneg (schema : List Col) (c : Col) (r : Row) : Bool :=
  match cellAt schema r c with
  | some (some v) => decide (0 ≤ v)
  | _ => false

/-- The whitelist filtering loop of src/app.py lines 36 to 39: restrict the
whitelist to the columns actually present, then filter the rows on each in
sequence. -/
def filterNonneg (schema : List Col) (wl : List Col) (rows : List Row) : List Row :=
  (wl.filter fun c => decide (c ∈ schema)).foldl
    (fun rs c => rs.filter (keepNonneg schema c)) rows

/-- The cleaning stage, src/app.py lines 26 to 39: dropna, then
drop_duplicates, then drop rows negative in any present whitelisted
column. The schema is unchanged. -/
def clean (t : RawTable) : RawTable :=
  { schema := t.schema
    rows := filterNonneg t.schema numeric_cols (dropDuplicates (dropna t.rows)) }

/-- Errors of the embedded pipeline. The source raises a pandas KeyError
when a required column is absent (modelled as schemaError); it never
raises any error on an empty dataset, so emptyDatasetError is declared
(the spec names it) but never produced by the code. -/
inductive PErr where
  | schemaError
  | emptyDatasetError
deriving DecidableEq

/-- The six raw columns feature engineering requires, src/app.py lines 46
to 48. -/
def requiredCols : List Col :=
  [.fee_range_max, .fee_range_min, .input_count, .output_count, .total_fees, .tx_count]

/-- A cleaned row together with its three engineered features. -/
structure FeatRow where
  raw : Row
  fee_spread : ℚ
  tx_complexity : ℚ
  fee_per_tx : ℚ
deriving DecidableEq

/-- Feature engineering for one row, src/app.py lines 46 to 48. -/
def mkFeat (schema : List Col) (r : Row) : FeatRow :=
  { raw := r
    fee_spread := cellVal schema r .fee_range_max - cellVal schema r .fee_range_min
    tx_complexity := cellVal schema r .input_count + cellVal schema r .output_count
    fee_per_tx := cellVal schema r .total_fees / (cellVal schema r .tx_count + 1) }

/-- The feature-engineering stage: accessing a missing required column
fails (pandas KeyError); otherwise every row gets the three features. -/
def deriveFeatures (t : RawTable) : Except PErr (List FeatRow) :=
  if requiredCols.all fun c => decide (c ∈ t.schema) then
    .ok (t.rows.map (mkFeat t.schema))
  else
    .error .schemaError

/-- Sort a list of rationals ascending. -/
def sortR (l : List ℚ) : List ℚ := l.insertionSort (· ≤ ·)

/-- Linear interpolation between order statistics at fractional rank h
(the conventional definition pandas quantile uses). -/
def interpAt (s : List ℚ) (h : ℚ) : ℚ :=
  s.getD ⌊h⌋₊ 0 +
    (h - (⌊h⌋₊ : ℚ)) * (s.getD (min (⌊h⌋₊ + 1) (s.length - 1)) 0 - s.getD ⌊h⌋₊ 0)

/-- Series.quantile(q) with linear interpolation between order statistics;
none on an empty series (pandas returns NaN there). -/
def quantileQ (l : List ℚ) (q : ℚ) : Option ℚ :=
  match l with
  | [] => none
  | _ :: _ => some (interpAt (sortR l) (((l.length - 1 : ℕ) : ℚ) * q))

/-- Series.max(): none on an empty series (pandas returns NaN there). -/
def maxQ : List ℚ → Option ℚ
  | [] => none
  | a :: l => some (l.foldl max a)

/-- fee_spread_thresh at src/app.py line 68; the slider passes an integer
percentile, divided by 100. -/
def fee_spread_thresh (feats : List FeatRow) (percentile : ℕ) : Option ℚ :=
  quantileQ (feats.map FeatRow.fee_spread) ((percentile : ℚ) / 100)

/-- complexity_thresh at src/app.py line 69. -/
def complexity_thresh (feats : List FeatRow) (percentile : ℕ) : Option ℚ :=
  quantileQ (feats.map FeatRow.tx_complexity) ((percentile : ℚ) / 100)

/-- fee_tx_thresh at src/app.py line 70. -/
def fee_tx_thresh (feats : List FeatRow) (percentile : ℕ) : Option ℚ :=
  quantileQ (feats.map FeatRow.fee_per_tx) ((percentile : ℚ) / 100)

/-- Strict comparison of a value with a possibly-undefined threshold: a
pandas comparison against NaN yields false. -/
def gtThresh (x : ℚ) : Option ℚ → Bool
  | some t => decide (t < x)
  | none => false

/-- The suspicious flag of one row, src/app.py lines 72 to 76: the union of
the three strict percentile-exceedance tests. -/
def suspiciousRow (feats : List FeatRow) (percentile : ℕ) (r : FeatRow) : Bool :=
  gtThresh r.fee_spread (fee_spread_thresh feats percentile) ||
  gtThresh r.tx_complexity (complexity_thresh feats percentile) ||
  gtThresh r.fee_per_tx (fee_tx_thresh feats percentile)

/-- Division with an undefined result (NaN or inf in float arithmetic)
when the divisor is zero or itself undefined. -/
def divQ (x : ℚ) : Option ℚ → Option ℚ
  | some m => if m = 0 then none else some (x / m)
  | none => none

/-- Round half to even to an integer, as numpy rounding does. -/
def roundHE (x : ℚ) : ℤ :=
  if x - ⌊x⌋ < 1 / 2 then ⌊x⌋
  else if 1 / 2 < x - ⌊x⌋ then ⌊x⌋ + 1
  else if ⌊x⌋ % 2 = 0 then ⌊x⌋ else ⌊x⌋ + 1

/-- Series.round(3) at src/app.py line 98: round at the third decimal. -/
def round3 (x : ℚ) : ℚ := (roundHE (x * 1000) : ℚ) / 1000

/-- The risk score of one row, src/app.py lines 92 to 98: weighted sum of
the three features each normalized by its dataset maximum, rounded to 3
decimals; an undefined division propagates into the result as NaN does. -/
def riskScore (feats : List FeatRow) (r : FeatRow) : Option ℚ :=
  match divQ r.fee_spread (maxQ (feats.map FeatRow.fee_spread)),
        divQ r.tx_complexity (maxQ (feats.map FeatRow.tx_complexity)),
        divQ r.fee_per_tx (maxQ (feats.map FeatRow.fee_per_tx)) with
  | some a, some b, some c => some (round3 (0.4 * a + 0.3 * b + 0.3 * c))
  | _, _, _ => none

/-- One fully augmented output row. -/
structure OutRow where
  raw : Row
  fee_spread : ℚ
  tx_complexity : ℚ
  fee_per_tx : ℚ
  suspicious : Bool
  risk_score : Option ℚ
deriving DecidableEq

/-- Assemble the augmented output row for one cleaned, featurized row. -/
def mkOut (feats : List FeatRow) (percentile : ℕ) (r : FeatRow) : OutRow :=
  { raw := r.raw
    fee_spread := r.fee_spread
    tx_complexity := r.tx_complexity
    fee_per_tx := r.fee_per_tx
    suspicious := suspiciousRow feats percentile r
    risk_score := riskScore feats r }

/-- The whole pipeline of src/app.py: clean, derive features, flag
anomalies at the given percentile, score risk. -/
def runPipeline (t : RawTable) (percentile : ℕ) : Except PErr (List OutRow) :=
  match deriveFeatures (clean t) with
  | .error e => .error e
  | .ok feats => .ok (feats.map (mkOut feats percentile))

/-- The risk-score formula as the specification words it: 0.4 times
fee_spread over its dataset maximum, plus 0.3 times tx_complexity over its
dataset maximum, plus 0.3 times fee_per_tx over its dataset maximum,
rounded to 3 decimal places; a division by an undefined or zero maximum is
undefined and propagates. -/
def riskScoreSpec (feats : List FeatRow) (r : FeatRow) : Option ℚ :=
  (divQ r.fee_spread (maxQ (feats.map FeatRow.fee_spread))).bind fun a =>
  (divQ r.tx_complexity (maxQ (feats.map FeatRow.tx_complexity))).bind fun b =>
  (divQ r.fee_per_tx (maxQ (feats.map FeatRow.fee_per_tx))).map fun c =>
  round3 (0.4 * a + 0.3 * b + 0.3 * c)

/-- Number of rows flagged suspicious: len(df[df["suspicious"]]) at
src/app.py lines 78 and 81. -/
def suspiciousCount (feats : List FeatRow) (percentile : ℕ) : ℕ :=
  (feats.filter (suspiciousRow feats percentile)).length

/-- Both thresholds are defined and the first is at most the second. -/
def threshLe (x y : Option ℚ) : Prop :=
  ∃ a b, x = some a ∧ y = some b ∧ a ≤ b

/-- A schema holding the identifying height column and the six columns the
feature stage requires, used by the concrete example tables below. -/
def exSchema : List Col :=
  [.height, .fee_range_max, .fee_range_min, .input_count, .output_count,
   .total_fees, .tx_count]

/-- The derived-feature example row of the specification: fee_range_max 100,
fee_range_min 20, input_count 3, output_count 2, total_fees 50, tx_count 4. -/
def rowC8 : Row := [some 7, some 100, some 20, some 3, some 2, some 50, some 4]

def tC8 : RawTable := { schema := exSchema, rows := [rowC8] }

def featC8 : FeatRow := mkFeat exSchema rowC8

/-- A row with inconsistent fee bounds: fee_range_min 10 above
fee_range_max 0, giving a negative fee_spread; all raw cells are
non-negative, so it survives cleaning. -/
def rowNegSpread : Row := [some 1, some 0, some 10, some 0, some 0, some 0, some 0]

def rowPosSpread : Row := [some 2, some 10, some 0, some 3, some 2, some 5, some 0]

def tNegSpread : RawTable := { schema := exSchema, rows := [rowNegSpread, rowPosSpread] }

def featsNegSpread : List FeatRow := [mkFeat exSchema rowNegSpread, mkFeat exSchema rowPosSpread]

def outsNegSpread : List OutRow := featsNegSpread.map (mkOut featsNegSpread 95)

/-- A row with a missing (NaN) cell, so cleaning leaves zero rows. -/
def rowNaN : Row := [some 1, none, some 0, some 0, some 0, some 0, some 0]

def tC2 : RawTable := { schema := exSchema, rows := [rowNaN] }

/-- A table whose schema is missing the required tx_count column. -/
def tC6 : RawTable :=
  { schema := [.height, .fee_range_max, .fee_range_min, .input_count,
               .output_count, .total_fees]
    rows := [[some 1, some 2, some 1, some 1, some 1, some 3]] }

/-- A table with a duplicate pair, a row with a missing cell, and a row
with a negative whitelisted value. -/
def tC7 : RawTable :=
  { schema := [.height, .size]
    rows := [[some 1, some 5], [some 1, some 5], [some 2, none],
             [some 3, some (-4)]] }

def rowC3a : Row := [some 1, some 10, some 0, some 1, some 1, some 4, some 1]

def rowC3b : Row := [some 2, some 30, some 0, some 2, some 2, some 10, some 1]

def tC3 : RawTable := { schema := exSchema, rows := [rowC3a, rowC3b] }

def featsC3 : List FeatRow := [mkFeat exSchema rowC3a, mkFeat exSchema rowC3b]

def rowC4 : Row := [some 1, some 8, some 2, some 1, some 1, some 6, some 2]

def tC4 : RawTable := { schema := exSchema, rows := [rowC4] }

def featsC4 : List FeatRow := [mkFeat exSchema rowC4]

def featsC5 : List FeatRow :=
  [{ raw := [], fee_spread := 1, tx_complexity := 1, fee_per_tx := 1 },
   { raw := [], fee_spread := 2, tx_complexity := 2, fee_per_tx := 2 },
   { raw := [], fee_spread := 3, tx_complexity := 3, fee_per_tx := 3 }]

def rowP1 : Row := [some 1, some 5, some 1, some 1, some 1, some 2, some 0]

def rowP2 : Row := [some 2, some 9, some 2, some 2, some 2, some 8, some 1]

def tP1 : RawTable := { schema := exSchema, rows := [rowP1, rowP2] }

def tP2 : RawTable := { schema := exSchema, rows := [rowP2, rowP1] }

/-- A single all-zero row: every engineered feature is 0, so every dataset
maximum is 0. -/
def rowZero : Row := [some 1, some 0, some 0, some 0, some 0, some 0, some 0]

def tC10 : RawTable := { schema := exSchema, rows := [rowZero] }

def featsC10 : List FeatRow := [mkFeat exSchema rowZero]

def featsC1w : List FeatRow := [mkFeat exSchema rowC8]

def tC1w : RawTable := { schema := exSchema, rows := [rowC8] }

instance exceptDecEq {ε α : Type} [DecidableEq ε] [DecidableEq α] :
    DecidableEq (Except ε α)
  | .ok x, .ok y =>
    if h : x = y then .isTrue (by rw [h]) else .isFalse (by simp [h])
  | .ok _, .error _ => .isFalse (by simp)
  | .error _, .ok _ => .isFalse (by simp)
  | .error e, .error f =>
    if h : e = f then .isTrue (by rw [h]) else .isFalse (by simp [h])

/-! ### Lemmas about the cleaning stage -/

theorem mem_dropna {rows : List Row} {r : Row} :
    r ∈ dropna rows ↔ r ∈ rows ∧ ∀ cell ∈ r, cell.isSome := by
  simp [dropna, List.mem_filter, List.all_eq_true]

theorem mem_dropDupAux : ∀ (l : List Row) (seen : List Row) (r : Row),
    r ∈ dropDupAux seen l ↔ r ∈ l ∧ r ∉ seen
  | [], seen, r => by simp [dropDupAux]
  | a :: l, seen, r => by
    by_cases ha : a ∈ seen
    · rw [dropDupAux, if_pos ha, mem_dropDupAux l seen r]
      simp only [List.mem_cons]
      constructor
      · exact fun h => ⟨Or.inr h.1, h.2⟩
      · rintro ⟨h | h, hs⟩
        · exact absurd (h ▸ ha) hs
        · exact ⟨h, hs⟩
    · rw [dropDupAux, if_neg ha]
      simp only [List.mem_cons, mem_dropDupAux l (a :: seen) r]
      constructor
      · rintro (rfl | ⟨h, hs⟩)
        · exact ⟨Or.inl rfl, ha⟩
        · exact ⟨Or.inr h, fun hr => hs (Or.inr hr)⟩
      · rintro ⟨rfl | h, hs⟩
        · exact Or.inl rfl
        · by_cases hra : r = a
          · exact Or.inl hra
          · exact Or.inr ⟨h, fun hor => hor.elim hra hs⟩

theorem nodup_dropDupAux : ∀ (l : List Row) (seen : List Row),
    (dropDupAux seen l).Nodup
  | [], _ => List.nodup_nil
  | a :: l, seen => by
    by_cases ha : a ∈ seen
    · rw [dropDupAux, if_pos ha]; exact nodup_dropDupAux l seen
    · rw [dropDupAux, if_neg ha]
      refine List.nodup_cons.2 ⟨fun hmem => ?_, nodup_dropDupAux l (a :: seen)⟩
      exact ((mem_dropDupAux l (a :: seen) a).1 hmem).2 (List.mem_cons_self _ _)

theorem mem_dropDuplicates {rows : List Row} {r : Row} :
    r ∈ dropDuplicates rows ↔ r ∈ rows := by
  rw [dropDuplicates, mem_dropDupAux]
  simp

theorem nodup_dropDuplicates (rows : List Row) : (dropDuplicates rows).Nodup :=
  nodup_dropDupAux rows []

theorem perm_dropDuplicates {rows₁ rows₂ : List Row} (h : List.Perm rows₁ rows₂) :
    List.Perm (dropDuplicates rows₁) (dropDuplicates rows₂) := by
  rw [List.perm_ext_iff_of_nodup (nodup_dropDuplicates rows₁) (nodup_dropDuplicates rows₂)]
  intro a
  rw [mem_dropDuplicates, mem_dropDuplicates, h.mem_iff]

/-! ### Lemmas about sequential filtering over a column list -/

theorem mem_of_mem_foldlFilter {α β : Type} (p : β → α → Bool) :
    ∀ (cols : List β) (rows : List α) (r : α),
      r ∈ cols.foldl (fun rs c => rs.filter (p c)) rows → r ∈ rows
  | [], _, _, h => h
  | c :: cols, rows, r, h =>
    List.mem_filter.1 (mem_of_mem_foldlFilter p cols (rows.filter (p c)) r h) |>.1

theorem pred_of_mem_foldlFilter {α β : Type} (p : β → α → Bool) :
    ∀ (cols : List β) (rows : List α) (r : α) (c : β), c ∈ cols →
      r ∈ cols.foldl (fun rs c => rs.filter (p c)) rows → p c r = true := by
  intro cols
  induction cols with
  | nil => intro _ _ _ hc; exact absurd hc (List.not_mem_nil _)
  | cons c0 cols ih =>
    intro rows r c hc h
    rcases List.mem_cons.1 hc with rfl | hc
    · exact (List.mem_filter.1 (mem_of_mem_foldlFilter p cols _ r h)).2
    · exact ih (rows.filter (p c0)) r c hc h

theorem nodup_foldlFilter {α β : Type} (p : β → α → Bool) :
    ∀ (cols : List β) (rows : List α), rows.Nodup →
      (cols.foldl (fun rs c => rs.filter (p c)) rows).Nodup
  | [], _, h => h
  | c :: cols, rows, h => nodup_foldlFilter p cols (rows.filter (p c)) (h.filter _)

theorem perm_foldlFilter {α β : Type} (p : β → α → Bool) :
    ∀ (cols : List β) {rows₁ rows₂ : List α}, List.Perm rows₁ rows₂ →
      List.Perm (cols.foldl (fun rs c => rs.filter (p c)) rows₁)
        (cols.foldl (fun rs c => rs.filter (p c)) rows₂)
  | [], _, _, h => h
  | c :: cols, _, _, h => perm_foldlFilter p cols (h.filter (p c))

/-! ### Lemmas about the dataset maximum -/

theorem le_foldl_max : ∀ (l : List ℚ) (a x : ℚ), x = a ∨ x ∈ l → x ≤ l.foldl max a
  | [], a, x, h => by rcases h with rfl | h; exact le_refl _; exact absurd h (List.not_mem_nil _)
  | b :: l, a, x, h => by
    rcases h with rfl | h
    · exact le_trans (le_max_left x b) (le_foldl_max l (max x b) _ (Or.inl rfl))
    · rcases List.mem_cons.1 h with rfl | h
      · exact le_trans (le_max_right a x) (le_foldl_max l (max a x) _ (Or.inl rfl))
      · exact le_foldl_max l (max a b) x (Or.inr h)

theorem foldl_max_mem : ∀ (l : List ℚ) (a : ℚ), l.foldl max a = a ∨ l.foldl max a ∈ l
  | [], _ => Or.inl rfl
  | b :: l, a => by
    rcases foldl_max_mem l (max a b) with h | h
    · rcases max_choice a b with hm | hm
      · exact Or.inl (by rw [List.foldl_cons, h, hm])
      · exact Or.inr (by rw [List.foldl_cons, h, hm]; exact List.mem_cons_self _ _)
    · exact Or.inr (List.mem_cons_of_mem _ h)

theorem maxQ_spec {l : List ℚ} {m : ℚ} (h : maxQ l = some m) :
    m ∈ l ∧ ∀ x ∈ l, x ≤ m := by
  cases l with
  | nil => exact absurd h (by simp [maxQ])
  | cons a l =>
    have hm : l.foldl max a = m := by simpa [maxQ] using h
    constructor
    · rcases foldl_max_mem l a with h0 | h0
      · rw [← hm, h0]; exact List.mem_cons_self _ _
      · rw [← hm]; exact List.mem_cons_of_mem _ h0
    · intro x hx
      rw [← hm]
      rcases List.mem_cons.1 hx with rfl | hx
      · exact le_foldl_max l x x (Or.inl rfl)
      · exact le_foldl_max l a x (Or.inr hx)

theorem maxQ_perm {l₁ l₂ : List ℚ} (h : List.Perm l₁ l₂) : maxQ l₁ = maxQ l₂ := by
  cases l₁ with
  | nil => rw [← h.nil_eq]
  | cons a l =>
    cases l₂ with
    | nil => exact absurd h.symm.nil_eq (by simp)
    | cons b l2 =>
      obtain ⟨m₁, hm₁⟩ : ∃ m, maxQ (a :: l) = some m := ⟨_, rfl⟩
      obtain ⟨m₂, hm₂⟩ : ∃ m, maxQ (b :: l2) = some m := ⟨_, rfl⟩
      obtain ⟨mem₁, le₁⟩ := maxQ_spec hm₁
      obtain ⟨mem₂, le₂⟩ := maxQ_spec hm₂
      rw [hm₁, hm₂]
      exact congrArg some (le_antisymm (le₂ _ (h.mem_iff.1 mem₁)) (le₁ _ (h.mem_iff.2 mem₂)))

/-! ### Lemmas about sorting and the linear-interpolation quantile -/

theorem sortR_sorted (l : List ℚ) : (sortR l).Sorted (· ≤ ·) :=
  List.sorted_insertionSort _ l

theorem sortR_perm (l : List ℚ) : List.Perm (sortR l) l :=
  List.perm_insertionSort _ l

theorem sortR_length (l : List ℚ) : (sortR l).length = l.length :=
  (sortR_perm l).length_eq

theorem sortR_congr {l₁ l₂ : List ℚ} (h : List.Perm l₁ l₂) : sortR l₁ = sortR l₂ :=
  List.eq_of_perm_of_sorted ((sortR_perm l₁).trans (h.trans (sortR_perm l₂).symm))
    (sortR_sorted l₁) (sortR_sorted l₂)

theorem getD_mono_sorted {s : List ℚ} (hs : s.Sorted (· ≤ ·)) {i j : ℕ}
    (hij : i ≤ j) (hj : j < s.length) : s.getD i 0 ≤ s.getD j 0 := by
  have hi : i < s.length := lt_of_le_of_lt hij hj
  rw [List.getD_eq_getElem s 0 hi, List.getD_eq_getElem s 0 hj]
  exact hs.rel_get_of_le (by exact hij)


theorem interpAt_mono {s : List ℚ} (hs : s.Sorted (· ≤ ·)) (hne : s ≠ [])
    {h₁ h₂ : ℚ} (h0 : 0 ≤ h₁) (h12 : h₁ ≤ h₂) (hn : h₂ ≤ ((s.length - 1 : ℕ) : ℚ)) :
    interpAt s h₁ ≤ interpAt s h₂ := by
  have hlen : 0 < s.length := List.length_pos.2 hne
  have hii : ⌊h₁⌋₊ ≤ ⌊h₂⌋₊ := Nat.floor_le_floor h12
  have hi₂n : ⌊h₂⌋₊ ≤ s.length - 1 := by
    have h := Nat.floor_le_floor hn
    rwa [Nat.floor_natCast] at h
  have hi₁n : ⌊h₁⌋₊ ≤ s.length - 1 := le_trans hii hi₂n
  have hn1 : s.length - 1 < s.length := Nat.sub_lt hlen one_pos
  have hfl₁ : (⌊h₁⌋₊ : ℚ) ≤ h₁ := Nat.floor_le h0
  have hfl₂ : (⌊h₂⌋₊ : ℚ) ≤ h₂ := Nat.floor_le (le_trans h0 h12)
  have hlt₁ : h₁ < (⌊h₁⌋₊ : ℚ) + 1 := Nat.lt_floor_add_one h₁
  have hx₁ : s.getD ⌊h₁⌋₊ 0 ≤ s.getD (min (⌊h₁⌋₊ + 1) (s.length - 1)) 0 := by
    rcases le_or_lt (⌊h₁⌋₊ + 1) (s.length - 1) with hc | hc
    · rw [min_eq_left hc]
      exact getD_mono_sorted hs (Nat.le_succ _) (lt_of_le_of_lt hc hn1)
    · rw [min_eq_right (le_of_lt hc)]
      exact getD_mono_sorted hs hi₁n hn1
  have hx₂ : s.getD ⌊h₂⌋₊ 0 ≤ s.getD (min (⌊h₂⌋₊ + 1) (s.length - 1)) 0 := by
    rcases le_or_lt (⌊h₂⌋₊ + 1) (s.length - 1) with hc | hc
    · rw [min_eq_left hc]
      exact getD_mono_sorted hs (Nat.le_succ _) (lt_of_le_of_lt hc hn1)
    · rw [min_eq_right (le_of_lt hc)]
      exact getD_mono_sorted hs hi₂n hn1
  rcases eq_or_lt_of_le hii with heq | hlt
  · unfold interpAt
    rw [heq]
    nlinarith [mul_nonneg (sub_nonneg.2 h12) (sub_nonneg.2 (heq ▸ hx₂ : s.getD ⌊h₂⌋₊ 0 ≤ s.getD (min (⌊h₂⌋₊ + 1) (s.length - 1)) 0))]
  · have step1 : interpAt s h₁ ≤ s.getD (min (⌊h₁⌋₊ + 1) (s.length - 1)) 0 := by
      have hfrac : h₁ - (⌊h₁⌋₊ : ℚ) < 1 := by linarith
      have key := mul_nonneg (by linarith : (0:ℚ) ≤ 1 - (h₁ - (⌊h₁⌋₊ : ℚ)))
        (sub_nonneg.2 hx₁)
      unfold interpAt
      nlinarith [key]
    have step2 : s.getD (min (⌊h₁⌋₊ + 1) (s.length - 1)) 0 ≤ s.getD ⌊h₂⌋₊ 0 :=
      getD_mono_sorted hs (le_trans (min_le_left _ _) hlt) (lt_of_le_of_lt hi₂n hn1)
    have step3 : s.getD ⌊h₂⌋₊ 0 ≤ interpAt s h₂ := by
      have key := mul_nonneg (sub_nonneg.2 hfl₂) (sub_nonneg.2 hx₂)
      unfold interpAt
      nlinarith [key]
    exact le_trans (le_trans step1 step2) step3

theorem quantileQ_mono {l : List ℚ} (hne : l ≠ []) {q₁ q₂ : ℚ}
    (h0 : 0 ≤ q₁) (h12 : q₁ ≤ q₂) (h1 : q₂ ≤ 1) :
    ∃ a b, quantileQ l q₁ = some a ∧ quantileQ l q₂ = some b ∧ a ≤ b := by
  cases l with
  | nil => exact absurd rfl hne
  | cons x xs =>
    refine ⟨_, _, rfl, rfl, ?_⟩
    have hne2 : sortR (x :: xs) ≠ [] := by
      intro h
      have := sortR_length (x :: xs)
      rw [h] at this
      simp at this
    have hcast : (0 : ℚ) ≤ (((x :: xs).length - 1 : ℕ) : ℚ) := Nat.cast_nonneg _
    refine interpAt_mono (sortR_sorted _) hne2 (mul_nonneg hcast h0)
      (mul_le_mul_of_nonneg_left h12 hcast) ?_
    rw [sortR_length]
    calc (((x :: xs).length - 1 : ℕ) : ℚ) * q₂
        ≤ (((x :: xs).length - 1 : ℕ) : ℚ) * 1 := mul_le_mul_of_nonneg_left h1 hcast
      _ = (((x :: xs).length - 1 : ℕ) : ℚ) := mul_one _

theorem quantileQ_perm {l₁ l₂ : List ℚ} (h : List.Perm l₁ l₂) (q : ℚ) :
    quantileQ l₁ q = quantileQ l₂ q := by
  cases l₁ with
  | nil =>
    cases l₂ with
    | nil => rfl
    | cons b m => exact absurd h.nil_eq (by simp)
  | cons a l =>
    cases l₂ with
    | nil => exact absurd h.symm.nil_eq (by simp)
    | cons b m =>
      have hsort : sortR (a :: l) = sortR (b :: m) := sortR_congr h
      have hlen : (a :: l).length = (b :: m).length := h.length_eq
      simp only [quantileQ, hsort, hlen]

/-! ### Lemmas about rounding and the risk score -/

theorem roundHE_nonneg {x : ℚ} (h0 : 0 ≤ x) : 0 ≤ roundHE x := by
  have hf : (0 : ℤ) ≤ ⌊x⌋ := Int.floor_nonneg.2 h0
  unfold roundHE
  split_ifs <;> omega

theorem roundHE_le_cast {x : ℚ} {n : ℕ} (hx : x ≤ (n : ℚ)) : roundHE x ≤ (n : ℤ) := by
  have hf : ⌊x⌋ ≤ (n : ℤ) := by
    have h := Int.floor_le_floor hx
    rwa [Int.floor_natCast] at h
  have key : ¬(x - ⌊x⌋ < 1 / 2) → ⌊x⌋ + 1 ≤ (n : ℤ) := by
    intro hA
    rcases lt_or_eq_of_le hf with h | h
    · omega
    · exfalso
      apply hA
      have hge : ((n : ℤ) : ℚ) ≤ x := Int.le_floor.1 (le_of_eq h.symm)
      have hxn : x = ((n : ℤ) : ℚ) := le_antisymm (by exact_mod_cast hx) hge
      rw [hxn, Int.floor_intCast]
      norm_num
  unfold roundHE
  split_ifs with h1 h2 h3
  · exact hf
  · exact key h1
  · exact hf
  · exact key h1

theorem round3_nonneg {x : ℚ} (h0 : 0 ≤ x) : 0 ≤ round3 x := by
  unfold round3
  have h : (0 : ℤ) ≤ roundHE (x * 1000) := roundHE_nonneg (by positivity)
  have hc : (0 : ℚ) ≤ (roundHE (x * 1000) : ℚ) := by exact_mod_cast h
  positivity

theorem round3_le_one {x : ℚ} (h1 : x ≤ 1) : round3 x ≤ 1 := by
  unfold round3
  have hb : roundHE (x * 1000) ≤ ((1000 : ℕ) : ℤ) :=
    roundHE_le_cast (by push_cast; linarith)
  have hc : ((roundHE (x * 1000) : ℤ) : ℚ) ≤ 1000 := by exact_mod_cast hb
  linarith

theorem riskScore_eq_spec (feats : List FeatRow) (r : FeatRow) :
    riskScore feats r = riskScoreSpec feats r := by
  unfold riskScore riskScoreSpec
  cases divQ r.fee_spread (maxQ (feats.map FeatRow.fee_spread)) <;>
    cases divQ r.tx_complexity (maxQ (feats.map FeatRow.tx_complexity)) <;>
      cases divQ r.fee_per_tx (maxQ (feats.map FeatRow.fee_per_tx)) <;>
        rfl

/-! ### Lemmas bridging cleaning and feature engineering -/

theorem cellVal_nonneg_of_clean {t : RawTable} {r : Row} {c : Col}
    (hr : r ∈ (clean t).rows) (hc : c ∈ numeric_cols) (hcs : c ∈ t.schema) :
    0 ≤ cellVal t.schema r c := by
  have hmem : c ∈ numeric_cols.filter fun c => decide (c ∈ t.schema) :=
    List.mem_filter.2 ⟨hc, by simpa⟩
  have hk : keepNonneg t.schema c r = true :=
    pred_of_mem_foldlFilter (keepNonneg t.schema) _ _ r c hmem hr
  unfold keepNonneg at hk
  unfold cellVal
  cases hca : cellAt t.schema r c with
  | none => rw [hca] at hk
  | some cell =>
    cases cell with
    | none => rw [hca] at hk
    | some v =>
      rw [hca] at hk
      simpa using hk

theorem deriveFeatures_ok_iff {t : RawTable} {feats : List FeatRow} :
    deriveFeatures t = .ok feats ↔
      (∀ c ∈ requiredCols, c ∈ t.schema) ∧ feats = t.rows.map (mkFeat t.schema) := by
  unfold deriveFeatures
  by_cases hb : (requiredCols.all fun c => decide (c ∈ t.schema)) = true
  · rw [if_pos hb]
    constructor
    · intro h
      refine ⟨fun c hc => by simpa using List.all_eq_true.1 hb c hc, ?_⟩
      injection h with h
      exact h.symm
    · rintro ⟨-, rfl⟩
      rfl
  · rw [if_neg hb]
    constructor
    · intro h
      exact Except.noConfusion h
    · rintro ⟨hall, -⟩
      exact absurd (List.all_eq_true.2 fun c hc => by simpa using hall c hc) hb

theorem deriveFeatures_error {t : RawTable} {c : Col}
    (hc : c ∈ requiredCols) (hcs : c ∉ t.schema) :
    deriveFeatures t = .error .schemaError := by
  unfold deriveFeatures
  have hb : ¬(requiredCols.all fun c => decide (c ∈ t.schema)) = true := by
    intro h
    exact hcs (by simpa using List.all_eq_true.1 h c hc)
  rw [if_neg hb]

theorem featRow_nonneg {t : RawTable} {feats : List FeatRow}
    (h : deriveFeatures (clean t) = .ok feats) {f : FeatRow} (hf : f ∈ feats) :
    0 ≤ f.tx_complexity ∧ 0 ≤ f.fee_per_tx := by
  obtain ⟨hreq, rfl⟩ := deriveFeatures_ok_iff.1 h
  obtain ⟨r, hr, rfl⟩ := List.mem_map.1 hf
  have hin : 0 ≤ cellVal (clean t).schema r .input_count :=
    @cellVal_nonneg_of_clean t r .input_count hr (by decide) (hreq _ (by decide))
  have hout : 0 ≤ cellVal (clean t).schema r .output_count :=
    @cellVal_nonneg_of_clean t r .output_count hr (by decide) (hreq _ (by decide))
  have htf : 0 ≤ cellVal (clean t).schema r .total_fees :=
    @cellVal_nonneg_of_clean t r .total_fees hr (by decide) (hreq _ (by decide))
  have htx : 0 ≤ cellVal (clean t).schema r .tx_count :=
    @cellVal_nonneg_of_clean t r .tx_count hr (by decide) (hreq _ (by decide))
  constructor
  · exact add_nonneg hin hout
  · exact div_nonneg htf (by linarith)

/-! ### Pipeline plumbing lemmas -/

theorem runPipeline_ok {t : RawTable} {feats : List FeatRow} {p : ℕ}
    (h : deriveFeatures (clean t) = .ok feats) :
    runPipeline t p = .ok (feats.map (mkOut feats p)) := by
  unfold runPipeline
  rw [h]

theorem runPipeline_error {t : RawTable} {e : PErr} {p : ℕ}
    (h : deriveFeatures (clean t) = .error e) :
    runPipeline t p = .error e := by
  unfold runPipeline
  rw [h]

theorem deriveFeatures_cases (t : RawTable) :
    (deriveFeatures t = .ok (t.rows.map (mkFeat t.schema)) ∧
      ∀ c ∈ requiredCols, c ∈ t.schema) ∨
    (deriveFeatures t = .error .schemaError ∧ ¬∀ c ∈ requiredCols, c ∈ t.schema) := by
  unfold deriveFeatures
  by_cases hb : (requiredCols.all fun c => decide (c ∈ t.schema)) = true
  · left
    rw [if_pos hb]
    exact ⟨rfl, fun c hc => by simpa using List.all_eq_true.1 hb c hc⟩
  · right
    rw [if_neg hb]
    exact ⟨rfl, fun hall => hb (List.all_eq_true.2 fun c hc => by simpa using hall c hc)⟩

theorem length_filter_mono {α : Type} {f g : α → Bool} :
    ∀ l : List α, (∀ r ∈ l, f r = true → g r = true) →
      (l.filter f).length ≤ (l.filter g).length
  | [], _ => le_refl 0
  | a :: l, h => by
    have ih := length_filter_mono l fun r hr => h r (List.mem_cons_of_mem _ hr)
    by_cases hf : f a = true
    · rw [List.filter_cons_of_pos hf, List.filter_cons_of_pos (h a (List.mem_cons_self _ _) hf)]
      simpa using ih
    · rw [List.filter_cons_of_neg (by simpa using hf)]
      by_cases hg : g a = true
      · rw [List.filter_cons_of_pos hg]
        exact le_trans ih (by simp)
      · rw [List.filter_cons_of_neg (by simpa using hg)]
        exact ih

theorem clean_perm {t₁ t₂ : RawTable} (hs : t₂.schema = t₁.schema)
    (hp : List.Perm t₂.rows t₁.rows) :
    List.Perm (clean t₂).rows (clean t₁).rows := by
  have hdna : List.Perm (dropna t₂.rows) (dropna t₁.rows) := hp.filter _
  have hdd : List.Perm (dropDuplicates (dropna t₂.rows)) (dropDuplicates (dropna t₁.rows)) :=
    perm_dropDuplicates hdna
  show List.Perm (filterNonneg t₂.schema numeric_cols (dropDuplicates (dropna t₂.rows)))
    (filterNonneg t₁.schema numeric_cols (dropDuplicates (dropna t₁.rows)))
  rw [hs]
  exact perm_foldlFilter _ _ hdd

/-! ### The claims -/

section ClaimProofs

attribute [local semireducible] Rat.add Rat.mul Rat.inv Rat.sub Rat.ofScientific

theorem divQ_pos {x m : ℚ} (hm : m ≠ 0) : divQ x (some m) = some (x / m) := by
  show (if m = 0 then none else some (x / m)) = some (x / m)
  rw [if_neg hm]

/-- Claim C8: for every row of the cleaned dataset the feature stage adds
fee_spread = fee_range_max - fee_range_min, tx_complexity = input_count +
output_count and fee_per_tx = total_fees / (tx_count + 1); the witness
checks the concrete example row 100/20/3/2/50/4 yields 80, 5, 10. -/
theorem featureDerivation_formula (t : RawTable) {feats : List FeatRow}
    (h : deriveFeatures (clean t) = .ok feats) :
    ∀ f ∈ feats,
      f.fee_spread =
        cellVal t.schema f.raw .fee_range_max - cellVal t.schema f.raw .fee_range_min ∧
      f.tx_complexity =
        cellVal t.schema f.raw .input_count + cellVal t.schema f.raw .output_count ∧
      f.fee_per_tx =
        cellVal t.schema f.raw .total_fees / (cellVal t.schema f.raw .tx_count + 1) := by
  obtain ⟨-, rfl⟩ := deriveFeatures_ok_iff.1 h
  intro f hf
  obtain ⟨r, hr, rfl⟩ := List.mem_map.1 hf
  exact ⟨rfl, rfl, rfl⟩

/-- Witness for C8 at the concrete example row of the specification. -/
theorem featureDerivation_formula_witness :
    deriveFeatures (clean tC8) = .ok [featC8] ∧
    (featC8.fee_spread =
        cellVal tC8.schema featC8.raw .fee_range_max -
          cellVal tC8.schema featC8.raw .fee_range_min ∧
      featC8.tx_complexity =
        cellVal tC8.schema featC8.raw .input_count +
          cellVal tC8.schema featC8.raw .output_count ∧
      featC8.fee_per_tx =
        cellVal tC8.schema featC8.raw .total_fees /
          (cellVal tC8.schema featC8.raw .tx_count + 1)) ∧
    featC8.fee_spread = 80 ∧ featC8.tx_complexity = 5 ∧ featC8.fee_per_tx = 10 :=
  ⟨by decide, @featureDerivation_formula tC8 [featC8] (by decide) featC8 (by decide),
   by decide, by decide, by decide⟩

/-- Claim C6: a dataset whose schema misses one of the six required raw
columns makes the feature stage fail with the schema error, which surfaces
at the pipeline boundary with no partial result. -/
theorem missingColumn_schemaError (t : RawTable) (p : ℕ) (c : Col)
    (hc : c ∈ requiredCols) (hcs : c ∉ t.schema) :
    deriveFeatures (clean t) = .error .schemaError ∧
    runPipeline t p = .error .schemaError := by
  have hd : deriveFeatures (clean t) = .error .schemaError :=
    @deriveFeatures_error (clean t) c hc hcs
  exact ⟨hd, runPipeline_error hd⟩

/-- Witness for C6: a table missing tx_count. -/
theorem missingColumn_schemaError_witness :
    deriveFeatures (clean tC6) = .error .schemaError ∧
    runPipeline tC6 95 = .error .schemaError :=
  missingColumn_schemaError tC6 95 .tx_count (by decide) (by decide)

/-- Claim C4: every output row's risk_score equals the specification
formula 0.4 (fee_spread over its max) + 0.3 (tx_complexity over its max) +
0.3 (fee_per_tx over its max), rounded to 3 decimals. -/
theorem riskScore_formula (t : RawTable) (p : ℕ) {feats : List FeatRow}
    (h : deriveFeatures (clean t) = .ok feats) :
    ∃ outs, runPipeline t p = .ok outs ∧
      outs.map OutRow.risk_score = feats.map (riskScoreSpec feats) := by
  refine ⟨_, runPipeline_ok h, ?_⟩
  rw [List.map_map]
  exact List.map_congr_left fun r _ => riskScore_eq_spec feats r

/-- Witness for C4 at a concrete one-row table. -/
theorem riskScore_formula_witness :
    ∃ outs, runPipeline tC4 95 = .ok outs ∧
      outs.map OutRow.risk_score = featsC4.map (riskScoreSpec featsC4) :=
  riskScore_formula tC4 95 (by decide)

/-- Claim C3: a cleaned row is flagged suspicious iff at least one of its
three engineered features strictly exceeds its percentile threshold; in
particular a row exactly at a threshold is not flagged by that criterion. -/
theorem suspicious_iff (t : RawTable) (p : ℕ) {feats : List FeatRow}
    (h : deriveFeatures (clean t) = .ok feats) {t₁ t₂ t₃ : ℚ}
    (h₁ : fee_spread_thresh feats p = some t₁)
    (h₂ : complexity_thresh feats p = some t₂)
    (h₃ : fee_tx_thresh feats p = some t₃) :
    ∃ outs, runPipeline t p = .ok outs ∧
      outs.map OutRow.suspicious = feats.map (suspiciousRow feats p) ∧
      ∀ r ∈ feats, (suspiciousRow feats p r = true ↔
        (t₁ < r.fee_spread ∨ t₂ < r.tx_complexity ∨ t₃ < r.fee_per_tx)) := by
  refine ⟨_, runPipeline_ok h, ?_, ?_⟩
  · rw [List.map_map]
    rfl
  · intro r hr
    unfold suspiciousRow
    rw [h₁, h₂, h₃]
    simp [gtThresh, or_assoc]

/-- Witness for C3: at the two-row table tC3 with percentile 95 the
thresholds are 29, 39/10 and 97/20, and the iff holds at the second row. -/
theorem suspicious_iff_witness :
    runPipeline tC3 95 = .ok (featsC3.map (mkOut featsC3 95)) ∧
    (suspiciousRow featsC3 95 (mkFeat exSchema rowC3b) = true ↔
      ((29 : ℚ) < (mkFeat exSchema rowC3b).fee_spread ∨
        (39 / 10 : ℚ) < (mkFeat exSchema rowC3b).tx_complexity ∨
        (97 / 20 : ℚ) < (mkFeat exSchema rowC3b).fee_per_tx)) := by
  obtain ⟨outs, ho, hmap, hiff⟩ :=
    @suspicious_iff tC3 95 featsC3 (by decide) 29 (39 / 10) (97 / 20)
      (by decide) (by decide) (by decide)
  exact ⟨by decide, hiff _ (by decide)⟩

/-- Claim C10: on a cleaned non-empty dataset where some engineered
feature's maximum is exactly 0, the scoring stage raises no error: the
pipeline returns an ok table and the undefined division result (NaN)
propagates silently into every risk_score cell. -/
theorem zeroMax_propagates (t : RawTable) (p : ℕ) {feats : List FeatRow}
    (h : deriveFeatures (clean t) = .ok feats) (hne : feats ≠ [])
    (hz : maxQ (feats.map FeatRow.fee_spread) = some 0 ∨
          maxQ (feats.map FeatRow.tx_complexity) = some 0 ∨
          maxQ (feats.map FeatRow.fee_per_tx) = some 0) :
    ∃ outs, runPipeline t p = .ok outs ∧ outs ≠ [] ∧
      ∀ o ∈ outs, o.risk_score = none := by
  refine ⟨_, runPipeline_ok h, ?_, ?_⟩
  · intro hmap
    exact hne (List.map_eq_nil_iff.1 hmap)
  · intro o ho
    obtain ⟨f, hf, rfl⟩ := List.mem_map.1 ho
    show riskScore feats f = none
    have hdiv : ∀ x : ℚ, divQ x (some 0) = none := by
      intro x
      show (if (0 : ℚ) = 0 then none else some (x / 0)) = none
      rw [if_pos rfl]
    unfold riskScore
    rcases hz with hz | hz | hz
    · rw [hz, hdiv]
    · rw [hz, hdiv]
      cases divQ f.fee_spread (maxQ (feats.map FeatRow.fee_spread)) <;>
        cases divQ f.fee_per_tx (maxQ (feats.map FeatRow.fee_per_tx)) <;> rfl
    · rw [hz, hdiv]
      cases divQ f.fee_spread (maxQ (feats.map FeatRow.fee_spread)) <;>
        cases divQ f.tx_complexity (maxQ (feats.map FeatRow.tx_complexity)) <;> rfl

/-- Witness for C10 at the all-zero one-row table. -/
theorem zeroMax_propagates_witness :
    runPipeline tC10 95 = .ok (featsC10.map (mkOut featsC10 95)) ∧
    (mkOut featsC10 95 (mkFeat exSchema rowZero)).risk_score = none := by
  obtain ⟨outs, ho, -, hall⟩ :=
    @zeroMax_propagates tC10 95 featsC10 (by decide) (by decide) (Or.inl (by decide))
  have heq : runPipeline tC10 95 = .ok (featsC10.map (mkOut featsC10 95)) := by decide
  rw [heq] at ho
  injection ho with ho
  rw [← ho] at hall
  exact ⟨heq, hall _ (by decide)⟩

/-- Claim C7: after cleaning no row has a missing value, no two rows are
identical, every whitelisted column present in the schema holds only
non-negative values, and an absent whitelisted column is skipped (its
filtering step is a no-op; cleaning is total and never raises). -/
theorem clean_invariants (t : RawTable) :
    (∀ r ∈ (clean t).rows, ∀ cell ∈ r, cell.isSome = true) ∧
    (clean t).rows.Nodup ∧
    (∀ c ∈ numeric_cols, c ∈ t.schema → ∀ r ∈ (clean t).rows, ∀ v : ℚ,
      cellAt t.schema r c = some (some v) → 0 ≤ v) ∧
    (∀ (wl : List Col) (c : Col) (rows : List Row), c ∉ t.schema →
      filterNonneg t.schema (c :: wl) rows = filterNonneg t.schema wl rows) := by
  refine ⟨?_, ?_, ?_, ?_⟩
  · intro r hr cell hc
    have hr1 : r ∈ dropDuplicates (dropna t.rows) :=
      mem_of_mem_foldlFilter (keepNonneg t.schema) _ _ r hr
    have hr2 : r ∈ dropna t.rows := mem_dropDuplicates.1 hr1
    exact (mem_dropna.1 hr2).2 cell hc
  · exact nodup_foldlFilter (keepNonneg t.schema) _ _ (nodup_dropDuplicates _)
  · intro c hc hcs r hr v hv
    have h0 := cellVal_nonneg_of_clean hr hc hcs
    unfold cellVal at h0
    rw [hv] at h0
    exact h0
  · intro wl c rows hcs
    unfold filterNonneg
    rw [List.filter_cons_of_neg (by simpa using hcs)]

/-- Witness for C7: at the table tC7, cleaning drops the NaN row, one
duplicate and the negative-size row; the invariants evaluate as stated. -/
theorem clean_invariants_witness :
    (clean tC7).rows = [[some 1, some 5]] ∧
    (clean tC7).rows.Nodup ∧
    (0 : ℚ) ≤ 5 ∧
    filterNonneg tC7.schema [Col.tx_count] [] = filterNonneg tC7.schema [] [] :=
  ⟨by decide, (clean_invariants tC7).2.1,
   (clean_invariants tC7).2.2.1 Col.size (by decide) (by decide)
     [some 1, some 5] (by decide) 5 (by decide),
   (clean_invariants tC7).2.2.2 [] Col.tx_count [] (by decide)⟩

/-- Counterexample to C2 as stated: cleaning tC2 leaves zero rows, yet the
pipeline raises no EmptyDatasetError (nor any error) and returns an empty
augmented table. -/
theorem emptyDataset_no_error_cex :
    (clean tC2).rows = [] ∧
    runPipeline tC2 95 = .ok [] ∧
    runPipeline tC2 95 ≠ .error PErr.emptyDatasetError := by decide

/-- Claim C2 amended: if zero rows remain after cleaning (and the six
required columns are present in the schema), the pipeline raises no error:
it returns the empty augmented table, and the three quantile thresholds of
the empty feature columns are undefined (none, i.e. NaN). -/
theorem emptyDataset_returns_empty (t : RawTable) (p : ℕ)
    (hreq : ∀ c ∈ requiredCols, c ∈ t.schema)
    (hempty : (clean t).rows = []) :
    runPipeline t p = .ok [] ∧
    fee_spread_thresh [] p = none ∧
    complexity_thresh [] p = none ∧
    fee_tx_thresh [] p = none := by
  have hok : deriveFeatures (clean t) = .ok ([] : List FeatRow) :=
    deriveFeatures_ok_iff.2 ⟨hreq, by rw [hempty]; rfl⟩
  exact ⟨by rw [runPipeline_ok hok]; rfl, rfl, rfl, rfl⟩

/-- Witness for the amended C2 at the one-NaN-row table. -/
theorem emptyDataset_returns_empty_witness :
    runPipeline tC2 95 = .ok [] ∧
    fee_spread_thresh [] 95 = none ∧
    complexity_thresh [] 95 = none ∧
    fee_tx_thresh [] 95 = none :=
  emptyDataset_returns_empty tC2 95 (by decide) (by decide)

/-- Counterexample to C1 as stated: in tNegSpread every whitelisted raw
cell is non-negative so both rows survive cleaning, the three feature
maxima are 10, 5, 5 (all nonzero), yet the first row has fee_spread -10
and risk_score -2/5, outside [0, 1]. -/
theorem riskScore_bounds_cex :
    deriveFeatures (clean tNegSpread) = .ok featsNegSpread ∧
    maxQ (featsNegSpread.map FeatRow.fee_spread) = some 10 ∧
    maxQ (featsNegSpread.map FeatRow.tx_complexity) = some 5 ∧
    maxQ (featsNegSpread.map FeatRow.fee_per_tx) = some 5 ∧
    runPipeline tNegSpread 95 = .ok outsNegSpread ∧
    outsNegSpread.map OutRow.risk_score = [some (-2 / 5), some 1] ∧
    ¬(0 ≤ (-2 / 5 : ℚ)) := by decide

/-- Claim C1 amended: if additionally every cleaned row has a non-negative
fee_spread (the other two features are automatically non-negative after
cleaning), and each feature's dataset maximum is nonzero, then every
risk_score is defined and lies in [0, 1]. -/
theorem riskScore_bounds (t : RawTable) (p : ℕ) {feats : List FeatRow}
    (h : deriveFeatures (clean t) = .ok feats)
    (hfs : ∀ f ∈ feats, 0 ≤ f.fee_spread)
    (hm₁ : maxQ (feats.map FeatRow.fee_spread) ≠ some 0)
    (hm₂ : maxQ (feats.map FeatRow.tx_complexity) ≠ some 0)
    (hm₃ : maxQ (feats.map FeatRow.fee_per_tx) ≠ some 0) :
    ∀ outs, runPipeline t p = .ok outs → ∀ o ∈ outs,
      ∃ v, o.risk_score = some v ∧ 0 ≤ v ∧ v ≤ 1 := by
  intro outs houts o ho
  rw [runPipeline_ok h] at houts
  injection houts with houts
  subst houts
  obtain ⟨f, hf, rfl⟩ := List.mem_map.1 ho
  have hmapne : ∀ g : FeatRow → ℚ, feats.map g ≠ [] := by
    intro g hg
    rw [List.map_eq_nil_iff] at hg
    rw [hg] at hf
    exact List.not_mem_nil f hf
  obtain ⟨m₁, hmax₁⟩ : ∃ m, maxQ (feats.map FeatRow.fee_spread) = some m := by
    cases hl : feats.map FeatRow.fee_spread with
    | nil => exact absurd hl (hmapne _)
    | cons a l => exact ⟨_, rfl⟩
  obtain ⟨m₂, hmax₂⟩ : ∃ m, maxQ (feats.map FeatRow.tx_complexity) = some m := by
    cases hl : feats.map FeatRow.tx_complexity with
    | nil => exact absurd hl (hmapne _)
    | cons a l => exact ⟨_, rfl⟩
  obtain ⟨m₃, hmax₃⟩ : ∃ m, maxQ (feats.map FeatRow.fee_per_tx) = some m := by
    cases hl : feats.map FeatRow.fee_per_tx with
    | nil => exact absurd hl (hmapne _)
    | cons a l => exact ⟨_, rfl⟩
  obtain ⟨hmem₁, hub₁⟩ := maxQ_spec hmax₁
  obtain ⟨hmem₂, hub₂⟩ := maxQ_spec hmax₂
  obtain ⟨hmem₃, hub₃⟩ := maxQ_spec hmax₃
  have hm₁pos : 0 < m₁ := by
    rcases List.mem_map.1 hmem₁ with ⟨g, hg, rfl⟩
    rcases lt_or_eq_of_le (hfs g hg) with hlt | heq
    · exact hlt
    · rw [← heq] at hmax₁
      exact absurd hmax₁ hm₁
  have hm₂pos : 0 < m₂ := by
    rcases List.mem_map.1 hmem₂ with ⟨g, hg, rfl⟩
    rcases lt_or_eq_of_le (featRow_nonneg h hg).1 with hlt | heq
    · exact hlt
    · rw [← heq] at hmax₂
      exact absurd hmax₂ hm₂
  have hm₃pos : 0 < m₃ := by
    rcases List.mem_map.1 hmem₃ with ⟨g, hg, rfl⟩
    rcases lt_or_eq_of_le (featRow_nonneg h hg).2 with hlt | heq
    · exact hlt
    · rw [← heq] at hmax₃
      exact absurd hmax₃ hm₃
  have ha0 : 0 ≤ f.fee_spread / m₁ := div_nonneg (hfs f hf) (le_of_lt hm₁pos)
  have hb0 : 0 ≤ f.tx_complexity / m₂ :=
    div_nonneg (featRow_nonneg h hf).1 (le_of_lt hm₂pos)
  have hc0 : 0 ≤ f.fee_per_tx / m₃ :=
    div_nonneg (featRow_nonneg h hf).2 (le_of_lt hm₃pos)
  have ha1 : f.fee_spread / m₁ ≤ 1 :=
    (div_le_one hm₁pos).2 (hub₁ _ (List.mem_map_of_mem _ hf))
  have hb1 : f.tx_complexity / m₂ ≤ 1 :=
    (div_le_one hm₂pos).2 (hub₂ _ (List.mem_map_of_mem _ hf))
  have hc1 : f.fee_per_tx / m₃ ≤ 1 :=
    (div_le_one hm₃pos).2 (hub₃ _ (List.mem_map_of_mem _ hf))
  refine ⟨round3 (0.4 * (f.fee_spread / m₁) + 0.3 * (f.tx_complexity / m₂) +
    0.3 * (f.fee_per_tx / m₃)), ?_, ?_, ?_⟩
  · show riskScore feats f = _
    unfold riskScore
    rw [hmax₁, hmax₂, hmax₃, divQ_pos (ne_of_gt hm₁pos), divQ_pos (ne_of_gt hm₂pos),
      divQ_pos (ne_of_gt hm₃pos)]
  · apply round3_nonneg
    have h04 : (0 : ℚ) ≤ 0.4 := by norm_num
    have h03 : (0 : ℚ) ≤ 0.3 := by norm_num
    exact add_nonneg (add_nonneg (mul_nonneg h04 ha0) (mul_nonneg h03 hb0))
      (mul_nonneg h03 hc0)
  · apply round3_le_one
    nlinarith [ha1, hb1, hc1, ha0, hb0, hc0]

/-- Witness for the amended C1 at a one-row table with positive features:
the risk score is defined and lies in [0, 1]. -/
theorem riskScore_bounds_witness :
    ∃ v, (mkOut featsC1w 95 (mkFeat exSchema rowC8)).risk_score = some v ∧
      0 ≤ v ∧ v ≤ 1 :=
  @riskScore_bounds tC1w 95 featsC1w (by decide) (by decide) (by decide) (by decide)
    (by decide) (featsC1w.map (mkOut featsC1w 95)) (by decide)
    (mkOut featsC1w 95 (mkFeat exSchema rowC8)) (by decide)

/-- Claim C5: for a fixed cleaned dataset and integer percentiles p ≤ q in
[90, 99], none of the three thresholds computed at q is smaller than the
one computed at p, and the number of rows flagged suspicious at q is not
larger than at p. -/
theorem thresholds_monotone (feats : List FeatRow) (hne : feats ≠ []) (p q : ℕ)
    (hp : 90 ≤ p) (hpq : p ≤ q) (hq : q ≤ 99) :
    threshLe (fee_spread_thresh feats p) (fee_spread_thresh feats q) ∧
    threshLe (complexity_thresh feats p) (complexity_thresh feats q) ∧
    threshLe (fee_tx_thresh feats p) (fee_tx_thresh feats q) ∧
    suspiciousCount feats q ≤ suspiciousCount feats p := by
  have hpq2 : (p : ℚ) ≤ (q : ℚ) := by exact_mod_cast hpq
  have hq2 : (q : ℚ) ≤ 99 := by exact_mod_cast hq
  have h0 : (0 : ℚ) ≤ (p : ℚ) / 100 := by positivity
  have h12 : (p : ℚ) / 100 ≤ (q : ℚ) / 100 := by linarith
  have h1 : (q : ℚ) / 100 ≤ 1 := by linarith
  have hmapne : ∀ g : FeatRow → ℚ, feats.map g ≠ [] := by
    intro g hg
    exact hne (List.map_eq_nil_iff.1 hg)
  obtain ⟨a₁, b₁, ha₁, hb₁, hab₁⟩ :=
    quantileQ_mono (hmapne FeatRow.fee_spread) h0 h12 h1
  obtain ⟨a₂, b₂, ha₂, hb₂, hab₂⟩ :=
    quantileQ_mono (hmapne FeatRow.tx_complexity) h0 h12 h1
  obtain ⟨a₃, b₃, ha₃, hb₃, hab₃⟩ :=
    quantileQ_mono (hmapne FeatRow.fee_per_tx) h0 h12 h1
  refine ⟨⟨a₁, b₁, ha₁, hb₁, hab₁⟩, ⟨a₂, b₂, ha₂, hb₂, hab₂⟩,
    ⟨a₃, b₃, ha₃, hb₃, hab₃⟩, ?_⟩
  show (feats.filter (suspiciousRow feats q)).length ≤
    (feats.filter (suspiciousRow feats p)).length
  apply length_filter_mono
  intro r hr hsus
  unfold suspiciousRow at hsus ⊢
  rw [Bool.or_eq_true, Bool.or_eq_true] at hsus ⊢
  have key : ∀ {x u v : ℚ} {X Y : Option ℚ}, X = some u → Y = some v → u ≤ v →
      gtThresh x Y = true → gtThresh x X = true := by
    intro x u v X Y hX hY huv hgt
    rw [hY] at hgt
    rw [hX]
    simp only [gtThresh, decide_eq_true_eq] at hgt ⊢
    linarith
  rcases hsus with (hh | hh) | hh
  · exact Or.inl (Or.inl (key ha₁ hb₁ hab₁ hh))
  · exact Or.inl (Or.inr (key ha₂ hb₂ hab₂ hh))
  · exact Or.inr (key ha₃ hb₃ hab₃ hh)

/-- Witness for C5 at a three-row feature list with percentiles 90, 99. -/
theorem thresholds_monotone_witness :
    threshLe (fee_spread_thresh featsC5 90) (fee_spread_thresh featsC5 99) ∧
    threshLe (complexity_thresh featsC5 90) (complexity_thresh featsC5 99) ∧
    threshLe (fee_tx_thresh featsC5 90) (fee_tx_thresh featsC5 99) ∧
    suspiciousCount featsC5 99 ≤ suspiciousCount featsC5 90 :=
  thresholds_monotone featsC5 (by decide) 90 99 (by decide) (by decide) (by decide)

/-- Claim C9: permuting the input rows (same schema) yields the same error,
or output tables that are permutations of each other, i.e. the same per-row
results keyed by the rows themselves. -/
theorem pipeline_perm (t₁ t₂ : RawTable) (p : ℕ) (hs : t₂.schema = t₁.schema)
    (hp : List.Perm t₂.rows t₁.rows) :
    (∃ e, runPipeline t₁ p = .error e ∧ runPipeline t₂ p = .error e) ∨
    (∃ o₁ o₂, runPipeline t₁ p = .ok o₁ ∧ runPipeline t₂ p = .ok o₂ ∧
      List.Perm o₂ o₁) := by
  have hcs : (clean t₂).schema = (clean t₁).schema := hs
  have hreq_iff : (∀ c ∈ requiredCols, c ∈ (clean t₂).schema) ↔
      (∀ c ∈ requiredCols, c ∈ (clean t₁).schema) := by rw [hcs]
  rcases deriveFeatures_cases (clean t₁) with ⟨hok₁, hall₁⟩ | ⟨herr₁, hnall₁⟩
  · rcases deriveFeatures_cases (clean t₂) with ⟨hok₂, hall₂⟩ | ⟨herr₂, hnall₂⟩
    · right
      have hfp : List.Perm ((clean t₂).rows.map (mkFeat (clean t₂).schema))
          ((clean t₁).rows.map (mkFeat (clean t₁).schema)) := by
        rw [hcs]
        exact (clean_perm hs hp).map _
      set feats₁ := (clean t₁).rows.map (mkFeat (clean t₁).schema)
      set feats₂ := (clean t₂).rows.map (mkFeat (clean t₂).schema)
      have e₁ : fee_spread_thresh feats₂ p = fee_spread_thresh feats₁ p :=
        quantileQ_perm (hfp.map _) _
      have e₂ : complexity_thresh feats₂ p = complexity_thresh feats₁ p :=
        quantileQ_perm (hfp.map _) _
      have e₃ : fee_tx_thresh feats₂ p = fee_tx_thresh feats₁ p :=
        quantileQ_perm (hfp.map _) _
      have m₁ : maxQ (feats₂.map FeatRow.fee_spread) =
          maxQ (feats₁.map FeatRow.fee_spread) := maxQ_perm (hfp.map _)
      have m₂ : maxQ (feats₂.map FeatRow.tx_complexity) =
          maxQ (feats₁.map FeatRow.tx_complexity) := maxQ_perm (hfp.map _)
      have m₃ : maxQ (feats₂.map FeatRow.fee_per_tx) =
          maxQ (feats₁.map FeatRow.fee_per_tx) := maxQ_perm (hfp.map _)
      have hsusp : ∀ r, suspiciousRow feats₂ p r = suspiciousRow feats₁ p r := by
        intro r
        unfold suspiciousRow
        rw [e₁, e₂, e₃]
      have hrisk : ∀ r, riskScore feats₂ r = riskScore feats₁ r := by
        intro r
        unfold riskScore
        rw [m₁, m₂, m₃]
      have hmk : ∀ r, mkOut feats₂ p r = mkOut feats₁ p r := by
        intro r
        unfold mkOut
        rw [hsusp r, hrisk r]
      refine ⟨feats₁.map (mkOut feats₁ p), feats₂.map (mkOut feats₂ p),
        runPipeline_ok hok₁, runPipeline_ok hok₂, ?_⟩
      rw [List.map_congr_left fun r _ => hmk r]
      exact hfp.map _
    · exact absurd (hreq_iff.2 hall₁) hnall₂
  · rcases deriveFeatures_cases (clean t₂) with ⟨hok₂, hall₂⟩ | ⟨herr₂, hnall₂⟩
    · exact absurd (hreq_iff.1 hall₂) hnall₁
    · left
      exact ⟨.schemaError, runPipeline_error herr₁, runPipeline_error herr₂⟩

/-- Witness for C9 at two concrete two-row tables that are permutations of
each other. -/
theorem pipeline_perm_witness :
    (∃ e, runPipeline tP1 95 = .error e ∧ runPipeline tP2 95 = .error e) ∨
    (∃ o₁ o₂, runPipeline tP1 95 = .ok o₁ ∧ runPipeline tP2 95 = .ok o₂ ∧
      List.Perm o₂ o₁) :=
  pipeline_perm tP1 tP2 95 rfl (List.Perm.swap rowP1 rowP2 [])

end ClaimProofs
